import Mathlib

/-!
Verification of the strategy engine of the `finance` repository
(`src/strategy.py`) against its natural-language specification.

The price series is embedded as a `List ℚ` of closing prices; the date of a
bar is its position in the list (dates in the source are strictly increasing,
so positions order exactly like dates).  Pandas `NaN` entries are embedded as
`none : Option ℚ`; comparisons against `NaN` are `false`, mirroring IEEE
semantics.  Real arithmetic is modelled exactly over `ℚ`; the two places where
IEEE special values arise in the source (`avg_gain / avg_loss` with
`avg_loss = 0` inside `calculate_rsi`) are modelled by explicit case analysis:
`x / 0 = +inf` for `x ≠ 0`, which makes `100 - 100/(1 + rs)` exactly `100`,
and `0 / 0 = NaN`, which makes the RSI value `NaN` (`none`).

The input `DataFrame` columns other than `Close` (Open, High, Low, Volume) are
always defined and are never read by the strategy code, so only `Close` is
carried.
-/

namespace Finance

/-- Positional access to a series, `prices.iloc[i]` / index lookup.
Only ever used at indices `< length` by the code below. -/
def cl (prices : List ℚ) (i : ℕ) : ℚ := (prices.get? i).getD 0

/-- `a > b` on possibly-NaN values: any comparison with NaN is `False`. -/
def optGt (a b : Option ℚ) : Bool :=
  match a, b with
  | some x, some y => decide (y < x)
  | _, _ => false

/-- `a < c` for a possibly-NaN `a` against a constant. -/
def optLtC (a : Option ℚ) (c : ℚ) : Bool :=
  match a with
  | some x => decide (x < c)
  | none => false

/-- `a > c` for a possibly-NaN `a` against a constant. -/
def optGtC (a : Option ℚ) (c : ℚ) : Bool :=
  match a with
  | some x => decide (c < x)
  | none => false

/-! ### Indicator library -/

/-- `df['Close'].rolling(window=w).mean()` at position `i`: `NaN` for the
first `w - 1` positions, thereafter the arithmetic mean of the trailing `w`
observations ending at `i`. -/
def movingAverageAt (prices : List ℚ) (w : ℕ) (i : ℕ) : Option ℚ :=
  if i + 1 < w then none
  else some (((prices.drop (i + 1 - w)).take w).sum / (w : ℚ))

/-- `data.diff()` at position `i` (`calculate_rsi`): `NaN` at position 0. -/
def deltaAt (prices : List ℚ) (i : ℕ) : Option ℚ :=
  if i = 0 then none else some (cl prices i - cl prices (i - 1))

/-- `delta.where(delta > 0, 0)`: the comparison with `NaN` is `False`, so the
first position becomes `0`, not `NaN`. -/
def gainAt (prices : List ℚ) (i : ℕ) : ℚ :=
  match deltaAt prices i with
  | some d => if 0 < d then d else 0
  | none => 0

/-- `-delta.where(delta < 0, 0)`. -/
def lossAt (prices : List ℚ) (i : ℕ) : ℚ :=
  match deltaAt prices i with
  | some d => if d < 0 then -d else 0
  | none => 0

/-- Decay factor of `ewm(span=period)`. -/
def ewmAlpha (period : ℕ) : ℚ := 2 / ((period : ℚ) + 1)

/-- `gain.ewm(span=period, adjust=False).mean()` at position `i`:
seeded by the first observation, then
`avg_t = avg_(t-1) + alpha * (x_t - avg_(t-1))`. -/
def avgGainAt (prices : List ℚ) (period : ℕ) : ℕ → ℚ
  | 0 => gainAt prices 0
  | i + 1 =>
      avgGainAt prices period i
        + ewmAlpha period * (gainAt prices (i + 1) - avgGainAt prices period i)

/-- `loss.ewm(span=period, adjust=False).mean()` at position `i`. -/
def avgLossAt (prices : List ℚ) (period : ℕ) : ℕ → ℚ
  | 0 => lossAt prices 0
  | i + 1 =>
      avgLossAt prices period i
        + ewmAlpha period * (lossAt prices (i + 1) - avgLossAt prices period i)

/-- `rs = avg_gain / avg_loss; rsi = 100 - 100/(1 + rs)` at position `i`,
under IEEE float semantics made explicit over `ℚ`:
with `avg_loss = 0` and `avg_gain ≠ 0` the quotient is infinite and the
resulting RSI is exactly `100`; with `avg_loss = 0 = avg_gain` the quotient
is `0/0 = NaN` and the RSI is `NaN` (`none`). -/
def rsiAt (prices : List ℚ) (period : ℕ) (i : ℕ) : Option ℚ :=
  if avgLossAt prices period i = 0 then
    (if avgGainAt prices period i = 0 then none else some 100)
  else
    some (100 - 100 / (1 + avgGainAt prices period i / avgLossAt prices period i))

/-- `calculate_rsi(data, period)`: the full RSI series, aligned with the
input series (no leading-NaN removal). -/
def calculate_rsi (prices : List ℚ) (period : ℕ) : List (Option ℚ) :=
  (List.range prices.length).map (rsiAt prices period)

/-! ### Moving-average crossover strategy -/

/-- The `Signal` column of `moving_average_crossover_strategy`:
initialized to `0`, then positions from `fast_period` on get
`1 if MA_Fast > MA_Slow else 0` (comparisons with `NaN` are `False`). -/
def maCrossSignal (prices : List ℚ) (f s : ℕ) (i : ℕ) : ℚ :=
  if i < f then 0
  else if optGt (movingAverageAt prices f i) (movingAverageAt prices s i) then 1
  else 0

/-- The `Position` column: `df['Signal'].diff()`, `NaN` at position 0. -/
def maCrossPos (prices : List ℚ) (f s : ℕ) (i : ℕ) : Option ℚ :=
  if i = 0 then none
  else some (maCrossSignal prices f s i - maCrossSignal prices f s (i - 1))

/-- Row-retention predicate of `df.dropna()` in the crossover strategy: the
row at position `i` survives iff every column at `i` is defined.  The input
columns and `Signal` are always defined; `MA_Fast`, `MA_Slow` and `Position`
can be `NaN`. -/
def maKeep (prices : List ℚ) (f s : ℕ) (i : ℕ) : Bool :=
  (movingAverageAt prices f i).isSome && (movingAverageAt prices s i).isSome
    && (maCrossPos prices f s i).isSome

/-- Pairs every element with its predecessor.  This is how the two
`.shift(1)`-style computations (`pct_change`, `Signal.shift(1)`) act on the
frame that remains after `dropna`: row `j` sees row `j - 1` of the same
frame, `none` for the first row. -/
def withPrev (xs : List ℕ) : List (ℕ × Option ℕ) :=
  xs.zip (none :: xs.map some)

/-- One row of the crossover strategy's output frame.
`rets` is the `Returns` column (`pct_change` of `Close`, computed after
`dropna`), `stratRet` is `Strategy_Returns = Signal.shift(1) * Returns`.
The two equity columns are cumulative products of `1 + rets` resp.
`1 + stratRet` and are consumed only by `analyze_drawdown`, which is modelled
below over an arbitrary equity series; no claim touches them here. -/
structure MARow where
  idx : ℕ
  close : ℚ
  maFast : Option ℚ
  maSlow : Option ℚ
  signal : ℚ
  position : Option ℚ
  rets : Option ℚ
  stratRet : Option ℚ
deriving Repr, DecidableEq

/-- Builds the output row at original position `ip.1`, with `ip.2` the
original position of the previous surviving row (`none` for the first). -/
def maRowAt (prices : List ℚ) (f s : ℕ) (ip : ℕ × Option ℕ) : MARow :=
  { idx := ip.1
  , close := cl prices ip.1
  , maFast := movingAverageAt prices f ip.1
  , maSlow := movingAverageAt prices s ip.1
  , signal := maCrossSignal prices f s ip.1
  , position := maCrossPos prices f s ip.1
  , rets := ip.2.map (fun q => cl prices ip.1 / cl prices q - 1)
  , stratRet := ip.2.map
      (fun q => maCrossSignal prices f s q * (cl prices ip.1 / cl prices q - 1)) }

/-- `moving_average_crossover_strategy` (the computational core, after the
external data download): computes both moving averages, the signal, the
signal difference, drops the `NaN` warm-up rows, then computes returns and
lagged strategy returns on the surviving frame.  The function performs no
parameter validation and cannot fail. -/
def moving_average_crossover_strategy (prices : List ℚ) (f s : ℕ) : List MARow :=
  (withPrev ((List.range prices.length).filter (maKeep prices f s))).map
    (maRowAt prices f s)

/-- The `Strategy_Returns` value recorded at original date `d` by the
crossover strategy, `none` when date `d` is not in the output frame. -/
def maStratRetAtDate (prices : List ℚ) (f s : ℕ) (d : ℕ) : Option (Option ℚ) :=
  ((moving_average_crossover_strategy prices f s).find? (fun r => r.idx == d)).map
    (fun r => r.stratRet)

/-! ### Trade analyzer -/

/-- The view of a result row used by `analyze_trades_detailed`: date,
close price and the `Position` column value. -/
structure TRow where
  date : ℕ
  close : ℚ
  position : Option ℚ
deriving Repr, DecidableEq

def maToTradeRow (r : MARow) : TRow :=
  { date := r.idx, close := r.close, position := r.position }

/-- A record of `analyze_trades_detailed`'s output. -/
structure Trade where
  num : ℕ
  entryDate : ℕ
  entryPrice : ℚ
  exitDate : ℕ
  exitPrice : ℚ
  pnlPct : ℚ
  pnlDollar : ℚ
  holdingDays : ℕ
  win : Bool
deriving Repr, DecidableEq

/-- Body of the pairing loop of `analyze_trades_detailed` at iteration `i`:
take the `i`-th BUY row, look for the first SELL row strictly later than its
date, and emit a trade if one exists. -/
def pairTradeAt (buys sells : List TRow) (cap : ℚ) (i : ℕ) : Option Trade :=
  match buys.get? i with
  | none => none
  | some e =>
      match sells.filter (fun x => decide (e.date < x.date)) with
      | [] => none
      | x :: _ =>
          some
            { num := i + 1
            , entryDate := e.date
            , entryPrice := e.close
            , exitDate := x.date
            , exitPrice := x.close
            , pnlPct := (x.close - e.close) / e.close * 100
            , pnlDollar := (x.close - e.close) * (cap / e.close)
            , holdingDays := x.date - e.date
            , win := decide (0 < (x.close - e.close) / e.close * 100) }

/-- `analyze_trades_detailed(results, initial_capital)`: BUY rows are those
with `Position == 1`, SELL rows those with `Position == -1`; the loop runs
for `min(#BUY, #SELL)` iterations. -/
def analyze_trades_detailed (rows : List TRow) (cap : ℚ) : List Trade :=
  let buys := rows.filter (fun r => r.position == some 1)
  let sells := rows.filter (fun r => r.position == some (-1))
  (List.range (min buys.length sells.length)).filterMap (pairTradeAt buys sells cap)

/-! ### Drawdown analyzer -/

/-- `equity.cummax()`. -/
def cummaxAux (m : ℚ) : List ℚ → List ℚ
  | [] => []
  | x :: xs => max m x :: cummaxAux (max m x) xs

def cummax : List ℚ → List ℚ
  | [] => []
  | x :: xs => x :: cummaxAux x xs

/-- Maximum of a nonempty list (`Series.max()`); `0` on the empty list,
which the source never reaches. -/
def listMax : List ℚ → ℚ
  | [] => 0
  | x :: xs => xs.foldl max x

/-- Minimum of a nonempty list (`Series.min()`). -/
def listMin : List ℚ → ℚ
  | [] => 0
  | x :: xs => xs.foldl min x

/-- First index whose value is `≥ c`; `length` if none.  With `c` the list
maximum this is `Series.idxmax()` (first occurrence of the maximum). -/
def firstIdxGe (c : ℚ) : List ℚ → ℕ
  | [] => 0
  | x :: xs => if c ≤ x then 0 else firstIdxGe c xs + 1

/-- First index whose value is `≤ c`; with `c` the list minimum this is
`Series.idxmin()` (first occurrence of the minimum). -/
def firstIdxLe (c : ℚ) : List ℚ → ℕ
  | [] => 0
  | x :: xs => if x ≤ c then 0 else firstIdxLe c xs + 1

/-- `Series.idxmax()`. -/
def idxmaxL (xs : List ℚ) : ℕ := firstIdxGe (listMax xs) xs

/-- `Series.idxmin()`. -/
def idxminL (xs : List ℚ) : ℕ := firstIdxLe (listMin xs) xs

/-- First index (from the head) satisfying `p`, as an `Option`; this is the
`series[condition].index[0]`-with-nonempty-guard idiom of the source. -/
def firstIdxP (p : ℚ → Bool) : List ℚ → Option ℕ
  | [] => none
  | x :: xs => if p x then some 0 else (firstIdxP p xs).map (· + 1)

/-- The data reported by `analyze_drawdown` (the function itself only prints
and plots; these are the values it computes and prints). -/
structure DrawdownEpisode where
  maxDrawdownPct : ℚ
  peakIdx : ℕ
  troughIdx : ℕ
  recoveryIdx : Option ℕ
deriving Repr, DecidableEq

/-- `analyze_drawdown(results)` on the `Strategy_Equity` series:
`running_max = equity.cummax()`;
`drawdown_pct = (equity - running_max)/running_max * 100`;
trough `= drawdown_pct.idxmin()`; max drawdown `= drawdown_pct.min()`;
peak `= running_max[:trough].idxmax()` (label slice, inclusive of the
trough); recovery = first index of `equity[trough:]` (inclusive slice) with
equity `≥ running_max[peak]`, absent if none. -/
def analyze_drawdown (equity : List ℚ) : DrawdownEpisode :=
  let runningMax := cummax equity
  let ddPct := List.zipWith (fun e m => (e - m) / m * 100) equity runningMax
  let trough := idxminL ddPct
  let maxDD := listMin ddPct
  let peak := idxmaxL (runningMax.take (trough + 1))
  let peakValue := cl runningMax peak
  let recovery := (firstIdxP (fun x => decide (peakValue ≤ x)) (equity.drop trough)).map
    (fun j => trough + j)
  ⟨maxDD, peak, trough, recovery⟩

/-! ### RSI mean-reversion strategy -/

/-- The raw `Signal` column of `rsi_mean_reversion_strategy` before the
forward-fill: initialized to `0`, set to `1` where `RSI < oversold`, then set
to `0` where `RSI > overbought` (the later assignment wins); comparisons with
a `NaN` RSI are `False`. -/
def rsiRawSignal (prices : List ℚ) (p : ℕ) (os ob : ℚ) (i : ℕ) : ℚ :=
  if optGtC (rsiAt prices p i) ob then 0
  else if optLtC (rsiAt prices p i) os then 1
  else 0

/-- The `Signal` column after
`df['Signal'].replace(0, np.nan).ffill().fillna(0)`: every `0` becomes `NaN`,
the forward fill then carries the last `1` forward, and leading `NaN`s become
`0`.  Equivalently: `1` from the first raw `1` onwards, else `0`. -/
def rsiSignal (prices : List ℚ) (p : ℕ) (os ob : ℚ) : ℕ → ℚ
  | 0 => if rsiRawSignal prices p os ob 0 = 1 then 1 else 0
  | i + 1 =>
      if rsiRawSignal prices p os ob (i + 1) = 1 then 1
      else rsiSignal prices p os ob i

/-- The `Position` column: `df['Signal'].diff()`. -/
def rsiPosAt (prices : List ℚ) (p : ℕ) (os ob : ℚ) (i : ℕ) : Option ℚ :=
  if i = 0 then none
  else some (rsiSignal prices p os ob i - rsiSignal prices p os ob (i - 1))

/-- The `Returns` column: `df['Close'].pct_change()`, computed on the full
frame (the RSI strategy drops NaN rows only at the very end). -/
def retAt (prices : List ℚ) (i : ℕ) : Option ℚ :=
  if i = 0 then none else some (cl prices i / cl prices (i - 1) - 1)

/-- The `Strategy_Returns` column:
`df['Signal'].shift(1) * df['Returns']`, on the full frame. -/
def rsiStratRetAt (prices : List ℚ) (p : ℕ) (os ob : ℚ) (i : ℕ) : Option ℚ :=
  if i = 0 then none
  else some (rsiSignal prices p os ob (i - 1) * (cl prices i / cl prices (i - 1) - 1))

/-- `(1 + returns).cumprod()` with pandas skip-NaN semantics: a `NaN` entry
stays `NaN` and does not reset the running product. -/
def cumprodSkipna (acc : ℚ) : List (Option ℚ) → List (Option ℚ)
  | [] => []
  | none :: xs => none :: cumprodSkipna acc xs
  | some x :: xs => some (acc * x) :: cumprodSkipna (acc * x) xs

/-- `Buy_Hold_Equity = initial_capital * (1 + Returns).cumprod()`. -/
def rsiBuyHoldCol (prices : List ℚ) (cap : ℚ) : List (Option ℚ) :=
  (cumprodSkipna 1
      (((List.range prices.length).map (retAt prices)).map
        (Option.map (fun r => 1 + r)))).map
    (Option.map (fun x => cap * x))

/-- `Strategy_Equity = initial_capital * (1 + Strategy_Returns).cumprod()`. -/
def rsiStratEqCol (prices : List ℚ) (p : ℕ) (os ob cap : ℚ) : List (Option ℚ) :=
  (cumprodSkipna 1
      (((List.range prices.length).map (rsiStratRetAt prices p os ob)).map
        (Option.map (fun r => 1 + r)))).map
    (Option.map (fun x => cap * x))

/-- One row of the RSI strategy's full frame (before the final `dropna`). -/
structure RSIRow where
  idx : ℕ
  close : ℚ
  rsi : Option ℚ
  signal : ℚ
  position : Option ℚ
  rets : Option ℚ
  stratRet : Option ℚ
  buyHold : Option ℚ
  stratEq : Option ℚ
deriving Repr, DecidableEq

def rsiRowAt (prices : List ℚ) (p : ℕ) (os ob : ℚ) (bh se : List (Option ℚ))
    (i : ℕ) : RSIRow :=
  { idx := i
  , close := cl prices i
  , rsi := rsiAt prices p i
  , signal := rsiSignal prices p os ob i
  , position := rsiPosAt prices p os ob i
  , rets := retAt prices i
  , stratRet := rsiStratRetAt prices p os ob i
  , buyHold := (bh.get? i).getD none
  , stratEq := (se.get? i).getD none }

/-- `df.dropna()` retention predicate for the RSI frame: all columns defined
(`Close` and the filled `Signal` always are). -/
def rsiRowKeep (r : RSIRow) : Bool :=
  r.rsi.isSome && r.position.isSome && r.rets.isSome && r.stratRet.isSome
    && r.buyHold.isSome && r.stratEq.isSome

/-- `rsi_mean_reversion_strategy` (the computational core): RSI, latched
signal, signal difference, returns, lagged strategy returns, the two equity
curves, and finally `dropna`. -/
def rsi_mean_reversion_strategy (prices : List ℚ) (p : ℕ) (os ob cap : ℚ) :
    List RSIRow :=
  let bh := rsiBuyHoldCol prices cap
  let se := rsiStratEqCol prices p os ob cap
  ((List.range prices.length).map (rsiRowAt prices p os ob bh se)).filter rsiRowKeep

/-- A record of `analyze_rsi_trades`'s output. -/
structure RSITrade where
  num : ℕ
  entryDate : ℕ
  entryPrice : ℚ
  entryRsi : Option ℚ
  exitDate : ℕ
  exitPrice : ℚ
  exitRsi : Option ℚ
  pnlPct : ℚ
  pnlDollar : ℚ
  holdingDays : ℕ
  win : Bool
deriving Repr, DecidableEq

/-- Loop body of `analyze_rsi_trades`. -/
def pairRsiTradeAt (buys sells : List RSIRow) (cap : ℚ) (i : ℕ) : Option RSITrade :=
  match buys.get? i with
  | none => none
  | some e =>
      match sells.filter (fun x => decide (e.idx < x.idx)) with
      | [] => none
      | x :: _ =>
          some
            { num := i + 1
            , entryDate := e.idx
            , entryPrice := e.close
            , entryRsi := e.rsi
            , exitDate := x.idx
            , exitPrice := x.close
            , exitRsi := x.rsi
            , pnlPct := (x.close - e.close) / e.close * 100
            , pnlDollar := (x.close - e.close) * (cap / e.close)
            , holdingDays := x.idx - e.idx
            , win := decide (0 < (x.close - e.close) / e.close * 100) }

/-- `analyze_rsi_trades(results, initial_capital)`. -/
def analyze_rsi_trades (rows : List RSIRow) (cap : ℚ) : List RSITrade :=
  let buys := rows.filter (fun r => r.position == some 1)
  let sells := rows.filter (fun r => r.position == some (-1))
  (List.range (min buys.length sells.length)).filterMap (pairRsiTradeAt buys sells cap)

/-! ### Generic list lemmas -/

theorem filter_range_ge (m n : ℕ) :
    (List.range n).filter (fun i => decide (m ≤ i)) = List.range' m (n - m) := by
  induction n with
  | zero => simp
  | succ n ih =>
      rw [List.range_succ, List.filter_append, ih]
      by_cases h : m ≤ n
      · have h2 : n + 1 - m = (n - m) + 1 := by omega
        rw [h2, List.range'_concat]
        have h3 : m + 1 * (n - m) = n := by omega
        rw [h3]
        simp [h]
      · have h2 : n + 1 - m = 0 := by omega
        have h3 : n - m = 0 := by omega
        rw [h2, h3]
        simp
        omega

theorem zip_shift_range' (k : ℕ) : ∀ (a : ℕ) (p : Option ℕ),
    (List.range' a k).zip (p :: (List.range' a k).map some) =
      (List.range' a k).map (fun i => (i, if i = a then p else some (i - 1))) := by
  induction k with
  | zero => intro a p; simp
  | succ k ih =>
      intro a p
      rw [List.range'_succ]
      simp only [List.map_cons, List.zip_cons_cons, ih (a + 1) (some a)]
      simp only [if_pos rfl, if_true]
      congr 1
      apply List.map_congr_left
      intro i hi
      rw [List.mem_range'] at hi
      obtain ⟨j, hjk, rfl⟩ := hi
      have hne : a + 1 + 1 * j ≠ a := by omega
      rw [if_neg hne]
      by_cases h0 : a + 1 + 1 * j = a + 1
      · rw [if_pos h0]
        have h1 : a + 1 + 1 * j - 1 = a := by omega
        rw [h1]
      · rw [if_neg h0]

theorem withPrev_range' (a k : ℕ) :
    withPrev (List.range' a k) =
      (List.range' a k).map (fun i => (i, if i = a then none else some (i - 1))) :=
  zip_shift_range' k a none

theorem find?_beq_range' (d : ℕ) : ∀ (k a : ℕ),
    (List.range' a k).find? (fun i => i == d) =
      if a ≤ d ∧ d < a + k then some d else none := by
  intro k
  induction k with
  | zero =>
      intro a
      rw [if_neg (by omega)]
      rfl
  | succ k ih =>
      intro a
      rw [List.range'_succ, List.find?_cons]
      by_cases h : a = d
      · subst h
        simp
      · have hb : (a == d) = false := by simp [h]
        rw [hb, ih (a + 1)]
        by_cases h1 : a + 1 ≤ d ∧ d < a + 1 + k
        · rw [if_pos h1, if_pos (by omega)]
        · rw [if_neg h1, if_neg (by omega)]

theorem get?_eq_of_take_eq {p1 p2 : List ℚ} {k i : ℕ}
    (h : p1.take k = p2.take k) (hik : i < k) : p1.get? i = p2.get? i := by
  rw [← List.get?_take hik (l := p1), h, List.get?_take hik]

theorem cl_eq_of_take_eq {p1 p2 : List ℚ} {k i : ℕ}
    (h : p1.take k = p2.take k) (hik : i < k) : cl p1 i = cl p2 i := by
  unfold cl
  rw [get?_eq_of_take_eq h hik]

theorem drop_take_eq_of_take_eq {p1 p2 : List ℚ} {k a w : ℕ}
    (h : p1.take k = p2.take k) (hw : a + w ≤ k) :
    (p1.drop a).take w = (p2.drop a).take w := by
  have h2 : (p1.drop a).take (k - a) = (p2.drop a).take (k - a) := by
    rw [← List.drop_take, h, List.drop_take]
  have h3 := congrArg (List.take w) h2
  rwa [List.take_take, List.take_take, min_eq_left (by omega)] at h3

/-! ### Characterization of the crossover strategy's output frame -/

/-- The first surviving row of the crossover frame: all rows before
`max (max f s) 2 - 1` are dropped by `dropna`. -/
def mThr (f s : ℕ) : ℕ := max (max f s) 2 - 1

theorem maKeep_eq (prices : List ℚ) (f s i : ℕ) :
    maKeep prices f s i = decide (mThr f s ≤ i) := by
  simp only [maKeep, maCrossPos, movingAverageAt, mThr]
  by_cases h1 : i + 1 < f <;> by_cases h2 : i + 1 < s <;> by_cases h3 : i = 0 <;>
    simp [h1, h2, h3] <;> omega

/-- The output row of the crossover strategy at original position `i`
(`i ≥ mThr f s`): the previous surviving row is at `i - 1` (there is none
when `i` is the first surviving position). -/
def maRowIdxFun (prices : List ℚ) (f s : ℕ) (i : ℕ) : MARow :=
  maRowAt prices f s (i, if i = mThr f s then none else some (i - 1))

theorem maStrategy_eq (prices : List ℚ) (f s : ℕ) :
    moving_average_crossover_strategy prices f s =
      (List.range' (mThr f s) (prices.length - mThr f s)).map (maRowIdxFun prices f s) := by
  unfold moving_average_crossover_strategy
  rw [List.filter_congr (fun i _ => maKeep_eq prices f s i), filter_range_ge,
    withPrev_range', List.map_map]
  rfl

theorem maStrategy_map_idx (prices : List ℚ) (f s : ℕ) :
    (moving_average_crossover_strategy prices f s).map (fun r => r.idx) =
      List.range' (mThr f s) (prices.length - mThr f s) := by
  rw [maStrategy_eq, List.map_map]
  have h : ((fun r : MARow => r.idx) ∘ maRowIdxFun prices f s) = fun i => i := rfl
  rw [h, List.map_id']

theorem maStrategy_find? (prices : List ℚ) (f s d : ℕ) :
    (moving_average_crossover_strategy prices f s).find? (fun r => r.idx == d) =
      if mThr f s ≤ d ∧ d < prices.length then some (maRowIdxFun prices f s d)
      else none := by
  rw [maStrategy_eq, List.find?_map]
  have hcomp : ((fun r : MARow => r.idx == d) ∘ maRowIdxFun prices f s) =
      fun i => i == d := rfl
  rw [hcomp, find?_beq_range' d]
  by_cases h : mThr f s ≤ prices.length
  · rw [Nat.add_sub_cancel' h]
    split_ifs <;> simp
  · have h0 : prices.length - mThr f s = 0 := by omega
    rw [h0]
    have hc1 : ¬(mThr f s ≤ d ∧ d < mThr f s + 0) := by omega
    have hc2 : ¬(mThr f s ≤ d ∧ d < prices.length) := by omega
    rw [if_neg hc1, if_neg hc2]
    rfl

theorem maStratRetAtDate_eq (prices : List ℚ) (f s d : ℕ) :
    maStratRetAtDate prices f s d =
      if mThr f s ≤ d ∧ d < prices.length
      then some ((maRowIdxFun prices f s d).stratRet) else none := by
  unfold maStratRetAtDate
  rw [maStrategy_find?]
  split_ifs <;> simp

theorem optGt_none (a : Option ℚ) : optGt a none = false := by
  unfold optGt
  cases a <;> rfl

theorem movingAverageAt_isSome (prices : List ℚ) (w i : ℕ) :
    (movingAverageAt prices w i).isSome = decide (w ≤ i + 1) := by
  unfold movingAverageAt
  by_cases h : i + 1 < w <;> simp [h] <;> omega

theorem maCrossSignal_mem01 (prices : List ℚ) (f s i : ℕ) :
    maCrossSignal prices f s i = 0 ∨ maCrossSignal prices f s i = 1 := by
  unfold maCrossSignal
  split_ifs <;> simp

theorem mThr_eq_of_lt (f s : ℕ) (h1 : 1 ≤ f) (h2 : f < s) : mThr f s = s - 1 := by
  unfold mThr
  have e1 : max f s = s := Nat.max_eq_right (le_of_lt h2)
  have e2 : max s 2 = s := Nat.max_eq_left (by omega)
  rw [e1, e2]

theorem mThr_eq_of_ge (f s : ℕ) (h1 : s ≤ f) : mThr f s = max f 2 - 1 := by
  unfold mThr
  rw [Nat.max_eq_left h1]

/-! ### Prefix dependence: every per-date value reads only data up to its date -/

theorem movingAverageAt_eq_of_take_eq {p1 p2 : List ℚ} {k : ℕ} (w : ℕ) {i : ℕ}
    (h : p1.take k = p2.take k) (hik : i < k) :
    movingAverageAt p1 w i = movingAverageAt p2 w i := by
  unfold movingAverageAt
  by_cases h1 : i + 1 < w
  · rw [if_pos h1, if_pos h1]
  · rw [if_neg h1, if_neg h1, drop_take_eq_of_take_eq h (by omega)]

theorem maCrossSignal_eq_of_take_eq {p1 p2 : List ℚ} {k : ℕ} (f s : ℕ) {i : ℕ}
    (h : p1.take k = p2.take k) (hik : i < k) :
    maCrossSignal p1 f s i = maCrossSignal p2 f s i := by
  unfold maCrossSignal
  rw [movingAverageAt_eq_of_take_eq f h hik, movingAverageAt_eq_of_take_eq s h hik]

theorem gainAt_eq_of_take_eq {p1 p2 : List ℚ} {k i : ℕ}
    (h : p1.take k = p2.take k) (hik : i < k) : gainAt p1 i = gainAt p2 i := by
  unfold gainAt deltaAt
  by_cases h0 : i = 0
  · rw [if_pos h0, if_pos h0]
  · rw [if_neg h0, if_neg h0, cl_eq_of_take_eq h hik,
      cl_eq_of_take_eq h (show i - 1 < k by omega)]

theorem lossAt_eq_of_take_eq {p1 p2 : List ℚ} {k i : ℕ}
    (h : p1.take k = p2.take k) (hik : i < k) : lossAt p1 i = lossAt p2 i := by
  unfold lossAt deltaAt
  by_cases h0 : i = 0
  · rw [if_pos h0, if_pos h0]
  · rw [if_neg h0, if_neg h0, cl_eq_of_take_eq h hik,
      cl_eq_of_take_eq h (show i - 1 < k by omega)]

theorem avgGainAt_eq_of_take_eq {p1 p2 : List ℚ} {k : ℕ} (per : ℕ)
    (h : p1.take k = p2.take k) :
    ∀ i, i < k → avgGainAt p1 per i = avgGainAt p2 per i := by
  intro i
  induction i with
  | zero =>
      intro hik
      unfold avgGainAt
      exact gainAt_eq_of_take_eq h hik
  | succ i ih =>
      intro hik
      unfold avgGainAt
      rw [ih (by omega), gainAt_eq_of_take_eq h hik]

theorem avgLossAt_eq_of_take_eq {p1 p2 : List ℚ} {k : ℕ} (per : ℕ)
    (h : p1.take k = p2.take k) :
    ∀ i, i < k → avgLossAt p1 per i = avgLossAt p2 per i := by
  intro i
  induction i with
  | zero =>
      intro hik
      unfold avgLossAt
      exact lossAt_eq_of_take_eq h hik
  | succ i ih =>
      intro hik
      unfold avgLossAt
      rw [ih (by omega), lossAt_eq_of_take_eq h hik]

theorem rsiAt_eq_of_take_eq {p1 p2 : List ℚ} {k : ℕ} (per : ℕ)
    (h : p1.take k = p2.take k) {i : ℕ} (hik : i < k) :
    rsiAt p1 per i = rsiAt p2 per i := by
  unfold rsiAt
  rw [avgGainAt_eq_of_take_eq per h i hik, avgLossAt_eq_of_take_eq per h i hik]

theorem rsiRawSignal_eq_of_take_eq {p1 p2 : List ℚ} {k : ℕ} (per : ℕ) (os ob : ℚ)
    (h : p1.take k = p2.take k) {i : ℕ} (hik : i < k) :
    rsiRawSignal p1 per os ob i = rsiRawSignal p2 per os ob i := by
  unfold rsiRawSignal
  rw [rsiAt_eq_of_take_eq per h hik]

theorem rsiSignal_eq_of_take_eq {p1 p2 : List ℚ} {k : ℕ} (per : ℕ) (os ob : ℚ)
    (h : p1.take k = p2.take k) :
    ∀ i, i < k → rsiSignal p1 per os ob i = rsiSignal p2 per os ob i := by
  intro i
  induction i with
  | zero =>
      intro hik
      unfold rsiSignal
      rw [rsiRawSignal_eq_of_take_eq per os ob h hik]
  | succ i ih =>
      intro hik
      unfold rsiSignal
      rw [rsiRawSignal_eq_of_take_eq per os ob h hik, ih (by omega)]

theorem rsiStratRetAt_eq_of_take_eq {p1 p2 : List ℚ} {k : ℕ} (per : ℕ) (os ob : ℚ)
    (h : p1.take k = p2.take k) {d : ℕ} (hd : d < k) :
    rsiStratRetAt p1 per os ob d = rsiStratRetAt p2 per os ob d := by
  unfold rsiStratRetAt
  by_cases h0 : d = 0
  · rw [if_pos h0, if_pos h0]
  · rw [if_neg h0, if_neg h0, rsiSignal_eq_of_take_eq per os ob h (d - 1) (by omega),
      cl_eq_of_take_eq h hd, cl_eq_of_take_eq h (show d - 1 < k by omega)]

theorem maRowIdxFun_stratRet_eq_of_take_eq {p1 p2 : List ℚ} {k : ℕ} (f s : ℕ)
    (h : p1.take k = p2.take k) {d : ℕ} (hd : d < k) :
    (maRowIdxFun p1 f s d).stratRet = (maRowIdxFun p2 f s d).stratRet := by
  unfold maRowIdxFun maRowAt
  dsimp only
  split_ifs with h0
  · rfl
  · simp only [Option.map_some']
    rw [maCrossSignal_eq_of_take_eq f s h (show d - 1 < k by omega),
      cl_eq_of_take_eq h hd, cl_eq_of_take_eq h (show d - 1 < k by omega)]

/-! ### Claim C8 -/

/-- C8 (confirmed): two-run noninterference.  For every pair of price series
that agree on all dates up to and including date `t` (both containing date
`t`) and differ only strictly after `t`, the `Strategy_Returns` value at
every date `d ≤ t` is identical in the two runs, both for the
moving-average crossover strategy (as recorded in its output frame) and for
the RSI mean-reversion strategy. -/
theorem C8_causality (p1 p2 : List ℚ) (f s per : ℕ) (os ob : ℚ) (t d : ℕ)
    (h1 : t < p1.length) (h2 : t < p2.length)
    (hagree : p1.take (t + 1) = p2.take (t + 1)) (hd : d ≤ t) :
    maStratRetAtDate p1 f s d = maStratRetAtDate p2 f s d ∧
      rsiStratRetAt p1 per os ob d = rsiStratRetAt p2 per os ob d := by
  have hd1 : d < p1.length := by omega
  have hd2 : d < p2.length := by omega
  have hdk : d < t + 1 := by omega
  constructor
  · rw [maStratRetAtDate_eq, maStratRetAtDate_eq]
    by_cases hm : mThr f s ≤ d
    · rw [if_pos ⟨hm, hd1⟩, if_pos ⟨hm, hd2⟩]
      exact congrArg some (maRowIdxFun_stratRet_eq_of_take_eq f s hagree hdk)
    · rw [if_neg (fun hc => hm hc.1), if_neg (fun hc => hm hc.1)]
  · exact rsiStratRetAt_eq_of_take_eq per os ob hagree hdk

/-- Witness for C8 at a concrete input: the series `[1, 2, 3]` and
`[1, 2, 5]` agree up to date 1 and the strategy returns at date 1 agree. -/
theorem C8_witness :
    (1 < 3 ∧ List.take 2 [(1 : ℚ), 2, 3] = List.take 2 [(1 : ℚ), 2, 5]) ∧
      maStratRetAtDate [(1 : ℚ), 2, 3] 1 2 1 = maStratRetAtDate [(1 : ℚ), 2, 5] 1 2 1 :=
  ⟨⟨by decide, by decide⟩,
    (C8_causality [(1 : ℚ), 2, 3] [(1 : ℚ), 2, 5] 1 2 2 30 70 1 1 (by decide)
      (by decide) (by decide) (by decide)).1⟩

/-! ### Claims C2, C5, C6 -/

unseal Rat.add Rat.mul Rat.sub Rat.inv in
/-- C2 (counterexample): on the series `[1, 1, 10, 1, 1]` with
`fast_period = 2`, `slow_period = 3`, the very first date of the output
frame (original date 2) carries `Position = 1`, and
`analyze_trades_detailed` treats it as an ENTRY, pairing it into the trade
`(entry 2, exit 4)`.  This refutes the claim that the first date of the
output signal series never produces a position event. -/
theorem C2_counterexample :
    ((moving_average_crossover_strategy [1, 1, 10, 1, 1] 2 3).head?).map
        (fun r => (r.idx, r.position)) = some (2, some 1) ∧
      (analyze_trades_detailed
          ((moving_average_crossover_strategy [1, 1, 10, 1, 1] 2 3).map maToTradeRow)
          10000).map (fun t => (t.entryDate, t.exitDate)) = [(2, 4)] := by
  decide

/-- C2 (amended): the row at the very first input date, whose differenced
signal is `NaN`, is always dropped by `dropna` (every output row has
`idx ≥ 1`); and the first output row's `Position` is `0` or `+1` — it is
never an EXIT, but it can be an ENTRY (the claim's "never produces a
position event" fails, see `C2_counterexample`). -/
theorem C2_amended (prices : List ℚ) (f s : ℕ) (h1 : 1 ≤ f) (h2 : f < s) :
    (∀ r ∈ moving_average_crossover_strategy prices f s, 1 ≤ r.idx) ∧
      ∀ r, (moving_average_crossover_strategy prices f s).head? = some r →
        r.position = some 0 ∨ r.position = some 1 := by
  have hm1 : 1 ≤ mThr f s := by
    have := le_max_right (max f s) 2
    unfold mThr
    omega
  have hms := mThr_eq_of_lt f s h1 h2
  constructor
  · intro r hr
    rw [maStrategy_eq] at hr
    obtain ⟨i, hi, rfl⟩ := List.mem_map.mp hr
    rw [List.mem_range'] at hi
    obtain ⟨j, hj, rfl⟩ := hi
    show 1 ≤ mThr f s + 1 * j
    omega
  · intro r hr
    rw [maStrategy_eq] at hr
    cases hk : prices.length - mThr f s with
    | zero =>
        rw [hk] at hr
        simp at hr
    | succ k =>
        rw [hk, List.range'_succ] at hr
        simp only [List.map_cons, List.head?_cons, Option.some.injEq] at hr
        subst hr
        have hsig0 : maCrossSignal prices f s (mThr f s - 1) = 0 := by
          unfold maCrossSignal
          by_cases hf : mThr f s - 1 < f
          · rw [if_pos hf]
          · rw [if_neg hf]
            have hnone : movingAverageAt prices s (mThr f s - 1) = none := by
              unfold movingAverageAt
              rw [if_pos (by omega)]
            rw [hnone, optGt_none]
            simp
        show (maRowIdxFun prices f s (mThr f s)).position = some 0 ∨
          (maRowIdxFun prices f s (mThr f s)).position = some 1
        unfold maRowIdxFun maRowAt maCrossPos
        dsimp only
        rw [if_neg (show ¬mThr f s = 0 by omega), hsig0, sub_zero]
        rcases maCrossSignal_mem01 prices f s (mThr f s) with h | h
        · left
          rw [h]
        · right
          rw [h]

unseal Rat.add Rat.mul Rat.sub Rat.inv in
/-- Witness for C2 (amended) at the concrete input of the counterexample:
the first output row (date 2) has `Position ∈ {0, +1}`. -/
theorem C2_witness :
    (1 ≤ 2 ∧ 2 < 3) ∧
      ((maRowIdxFun [1, 1, 10, 1, 1] 2 3 2).position = some 0 ∨
        (maRowIdxFun [1, 1, 10, 1, 1] 2 3 2).position = some 1) :=
  ⟨⟨by decide, by decide⟩,
    (C2_amended [1, 1, 10, 1, 1] 2 3 (by decide) (by decide)).2
      (maRowIdxFun [1, 1, 10, 1, 1] 2 3 2) (by decide)⟩

/-- C5 (counterexample): with `fast_period = 3 ≥ slow_period = 2` the
strategy raises no `InvalidParameter` error and does not fail fast: it
computes its complete output frame (here the three rows at dates 2, 3, 4).
The source performs no parameter validation at all, so the embedded
function is total. -/
theorem C5_counterexample :
    (moving_average_crossover_strategy [1, 2, 3, 4, 5] 3 2).map (fun r => r.idx) =
      [2, 3, 4] := by
  decide

/-- C5 (amended): the moving-average crossover strategy performs no
`fastPeriod`/`slowPeriod` ordering validation; for every call with
`fastPeriod ≥ slowPeriod` it completes normally and produces the full
output frame.  Its warm-up is governed by the fast period, except that the
very first row of the input is always dropped in addition because
`Signal.diff()` is `NaN` there: the output dates are exactly
`max(fastPeriod, 2) - 1, …, length - 1` — that is
`fastPeriod - 1, …, length - 1` when `fastPeriod ≥ 2`, and
`1, …, length - 1` when `fastPeriod = slowPeriod = 1`. -/
theorem C5_amended (prices : List ℚ) (f s : ℕ) (h : s ≤ f) :
    (moving_average_crossover_strategy prices f s).map (fun r => r.idx) =
      List.range' (max f 2 - 1) (prices.length - (max f 2 - 1)) := by
  rw [maStrategy_map_idx, mThr_eq_of_ge f s h]

/-- Witness for C5 (amended) at a concrete input. -/
theorem C5_witness :
    2 ≤ 3 ∧
      (moving_average_crossover_strategy [1, 2, 3, 4, 5] 3 2).map (fun r => r.idx) =
        List.range' 2 3 :=
  ⟨by decide, C5_amended [1, 2, 3, 4, 5] 3 2 (by decide)⟩

/-- C6 (counterexample): with `slow_period = 3` on a 3-bar series the claim
says the first `slowPeriod = 3` dates are excluded from the output entirely,
so the output would be empty; the code keeps date 2 (it only drops the first
`slowPeriod - 1 = 2` dates). -/
theorem C6_counterexample :
    (moving_average_crossover_strategy [1, 1, 10] 2 3).map (fun r => r.idx) = [2] ∧
      2 < 3 := by
  decide

/-- C6 (amended): the output frame is defined exactly from the first date at
which both moving averages are defined, i.e. from date `slowPeriod - 1`; the
excluded warm-up is the first `slowPeriod - 1` dates (not `slowPeriod`), and
the dates are excluded entirely rather than zero-filled: the output's date
list is exactly `slowPeriod - 1, …, length - 1`, and every output row has
both moving averages defined. -/
theorem C6_amended (prices : List ℚ) (f s : ℕ) (h1 : 1 ≤ f) (h2 : f < s) :
    (moving_average_crossover_strategy prices f s).map (fun r => r.idx) =
      List.range' (s - 1) (prices.length - (s - 1)) ∧
      ∀ r ∈ moving_average_crossover_strategy prices f s,
        (movingAverageAt prices f r.idx).isSome = true ∧
          (movingAverageAt prices s r.idx).isSome = true := by
  have hms := mThr_eq_of_lt f s h1 h2
  constructor
  · rw [maStrategy_map_idx, hms]
  · intro r hr
    rw [maStrategy_eq] at hr
    obtain ⟨i, hi, rfl⟩ := List.mem_map.mp hr
    rw [List.mem_range'] at hi
    obtain ⟨j, hj, rfl⟩ := hi
    rw [show (maRowIdxFun prices f s (mThr f s + 1 * j)).idx = mThr f s + 1 * j
        from rfl,
      movingAverageAt_isSome, movingAverageAt_isSome, hms]
    constructor <;> simp <;> omega

/-- Witness for C6 (amended) at a concrete input. -/
theorem C6_witness :
    (1 ≤ 2 ∧ 2 < 3) ∧
      (moving_average_crossover_strategy [1, 1, 10] 2 3).map (fun r => r.idx) =
        List.range' 2 1 :=
  ⟨⟨by decide, by decide⟩, (C6_amended [1, 1, 10] 2 3 (by decide) (by decide)).1⟩

/-! ### Lemmas about the drawdown analyzer's building blocks -/

theorem cl_cons_zero (x : ℚ) (t : List ℚ) : cl (x :: t) 0 = x := rfl

theorem cl_cons_succ (x : ℚ) (t : List ℚ) (k : ℕ) : cl (x :: t) (k + 1) = cl t k := rfl

theorem cl_mem {xs : List ℚ} {j : ℕ} (hj : j < xs.length) : cl xs j ∈ xs := by
  unfold cl
  rw [List.get?_eq_get hj]
  exact List.get_mem xs j hj

theorem cl_take {xs : List ℚ} {m k : ℕ} (h : k < m) : cl (xs.take m) k = cl xs k := by
  unfold cl
  rw [List.get?_take h]

theorem cl_drop (xs : List ℚ) (a k : ℕ) : cl (xs.drop a) k = cl xs (a + k) := by
  unfold cl
  rw [List.get?_drop]

/-- Prefix maximum of an equity series; the closed form of `cummax`. -/
def pMax (e : List ℚ) : ℕ → ℚ
  | 0 => cl e 0
  | i + 1 => max (pMax e i) (cl e (i + 1))

theorem pMax_cons (x : ℚ) (t : List ℚ) :
    ∀ k, pMax (x :: t) (k + 1) = max x (pMax t k) := by
  intro k
  induction k with
  | zero =>
      show max (pMax (x :: t) 0) (cl (x :: t) 1) = max x (pMax t 0)
      rw [cl_cons_succ]
      rfl
  | succ k ih =>
      show max (pMax (x :: t) (k + 1)) (cl (x :: t) (k + 2)) = _
      rw [ih, cl_cons_succ, max_assoc]
      rfl

theorem cummaxAux_length (m : ℚ) (l : List ℚ) : (cummaxAux m l).length = l.length := by
  induction l generalizing m with
  | nil => rfl
  | cons x xs ih =>
      show (cummaxAux (max m x) xs).length + 1 = xs.length + 1
      rw [ih]

theorem cummax_length (l : List ℚ) : (cummax l).length = l.length := by
  cases l with
  | nil => rfl
  | cons x xs =>
      show (cummaxAux x xs).length + 1 = xs.length + 1
      rw [cummaxAux_length]

theorem cummaxAux_get? (l : List ℚ) :
    ∀ (m : ℚ) (j : ℕ), j < l.length →
      (cummaxAux m l).get? j = some (max m (pMax l j)) := by
  induction l with
  | nil =>
      intro m j hj
      simp at hj
  | cons x xs ih =>
      intro m j hj
      cases j with
      | zero => rfl
      | succ j =>
          show (cummaxAux (max m x) xs).get? j = _
          rw [ih (max m x) j (by simpa using hj), pMax_cons, max_assoc]

theorem cummax_cl {e : List ℚ} {j : ℕ} (hj : j < e.length) :
    cl (cummax e) j = pMax e j := by
  cases e with
  | nil => simp at hj
  | cons x xs =>
      cases j with
      | zero => rfl
      | succ j =>
          show cl (cummaxAux x xs) j = pMax (x :: xs) (j + 1)
          unfold cl
          rw [cummaxAux_get? xs x j (by simpa using hj), pMax_cons]
          rfl

theorem le_pMax (e : List ℚ) : ∀ i j, j ≤ i → cl e j ≤ pMax e i := by
  intro i
  induction i with
  | zero =>
      intro j hj
      have : j = 0 := by omega
      subst this
      exact le_refl _
  | succ i ih =>
      intro j hj
      rcases Nat.lt_or_ge j (i + 1) with h | h
      · exact le_trans (ih j (by omega)) (le_max_left _ _)
      · have : j = i + 1 := by omega
        subst this
        exact le_max_right _ _

theorem pMax_mono (e : List ℚ) : ∀ {i j}, i ≤ j → pMax e i ≤ pMax e j := by
  intro i j hij
  induction j with
  | zero =>
      have : i = 0 := by omega
      subst this
      exact le_refl _
  | succ j ih =>
      rcases Nat.lt_or_ge i (j + 1) with h | h
      · exact le_trans (ih (by omega)) (le_max_left _ _)
      · have : i = j + 1 := by omega
        subst this
        exact le_refl _

theorem pMax_attained (e : List ℚ) : ∀ i, ∃ j, j ≤ i ∧ cl e j = pMax e i := by
  intro i
  induction i with
  | zero => exact ⟨0, le_refl 0, rfl⟩
  | succ i ih =>
      obtain ⟨j, hji, hj⟩ := ih
      rcases le_total (pMax e i) (cl e (i + 1)) with h | h
      · refine ⟨i + 1, le_refl _, ?_⟩
        show cl e (i + 1) = max (pMax e i) (cl e (i + 1))
        rw [max_eq_right h]
      · refine ⟨j, by omega, ?_⟩
        show cl e j = max (pMax e i) (cl e (i + 1))
        rw [max_eq_left h, hj]

theorem le_foldl_max (a : ℚ) (l : List ℚ) : a ≤ l.foldl max a := by
  induction l generalizing a with
  | nil => exact le_refl a
  | cons x xs ih => exact le_trans (le_max_left a x) (ih (max a x))

theorem mem_le_foldl_max {x : ℚ} {l : List ℚ} (a : ℚ) (hx : x ∈ l) :
    x ≤ l.foldl max a := by
  induction l generalizing a with
  | nil => cases hx
  | cons y ys ih =>
      rcases List.mem_cons.mp hx with h | h
      · subst h
        exact le_trans (le_max_right a x) (le_foldl_max (max a x) ys)
      · exact ih (max a y) h

theorem foldl_max_mem (a : ℚ) (l : List ℚ) : l.foldl max a = a ∨ l.foldl max a ∈ l := by
  induction l generalizing a with
  | nil => exact Or.inl rfl
  | cons x xs ih =>
      rcases ih (max a x) with h | h
      · rcases max_choice a x with h2 | h2
        · refine Or.inl ?_
          show xs.foldl max (max a x) = a
          rw [h, h2]
        · refine Or.inr (List.mem_cons.mpr (Or.inl ?_))
          show xs.foldl max (max a x) = x
          rw [h, h2]
      · exact Or.inr (List.mem_cons.mpr (Or.inr h))

theorem le_foldl_min (a : ℚ) (l : List ℚ) : l.foldl min a ≤ a := by
  induction l generalizing a with
  | nil => exact le_refl a
  | cons x xs ih => exact le_trans (ih (min a x)) (min_le_left a x)

theorem foldl_min_le_mem {x : ℚ} {l : List ℚ} (a : ℚ) (hx : x ∈ l) :
    l.foldl min a ≤ x := by
  induction l generalizing a with
  | nil => cases hx
  | cons y ys ih =>
      rcases List.mem_cons.mp hx with h | h
      · subst h
        exact le_trans (le_foldl_min (min a x) ys) (min_le_right a x)
      · exact ih (min a y) h

theorem foldl_min_mem (a : ℚ) (l : List ℚ) : l.foldl min a = a ∨ l.foldl min a ∈ l := by
  induction l generalizing a with
  | nil => exact Or.inl rfl
  | cons x xs ih =>
      rcases ih (min a x) with h | h
      · rcases min_choice a x with h2 | h2
        · refine Or.inl ?_
          show xs.foldl min (min a x) = a
          rw [h, h2]
        · refine Or.inr (List.mem_cons.mpr (Or.inl ?_))
          show xs.foldl min (min a x) = x
          rw [h, h2]
      · exact Or.inr (List.mem_cons.mpr (Or.inr h))

theorem listMax_mem {xs : List ℚ} (h : xs ≠ []) : listMax xs ∈ xs := by
  cases xs with
  | nil => exact absurd rfl h
  | cons x t =>
      rcases foldl_max_mem x t with h2 | h2
      · exact List.mem_cons.mpr (Or.inl h2)
      · exact List.mem_cons.mpr (Or.inr h2)

theorem le_listMax {x : ℚ} {xs : List ℚ} (hx : x ∈ xs) : x ≤ listMax xs := by
  cases xs with
  | nil => cases hx
  | cons y t =>
      rcases List.mem_cons.mp hx with h | h
      · subst h
        exact le_foldl_max x t
      · exact mem_le_foldl_max y h

theorem listMin_mem {xs : List ℚ} (h : xs ≠ []) : listMin xs ∈ xs := by
  cases xs with
  | nil => exact absurd rfl h
  | cons x t =>
      rcases foldl_min_mem x t with h2 | h2
      · exact List.mem_cons.mpr (Or.inl h2)
      · exact List.mem_cons.mpr (Or.inr h2)

theorem listMin_le {x : ℚ} {xs : List ℚ} (hx : x ∈ xs) : listMin xs ≤ x := by
  cases xs with
  | nil => cases hx
  | cons y t =>
      rcases List.mem_cons.mp hx with h | h
      · subst h
        exact le_foldl_min x t
      · exact foldl_min_le_mem y h

theorem firstIdxGe_spec (c : ℚ) :
    ∀ xs : List ℚ, (∃ x ∈ xs, c ≤ x) →
      firstIdxGe c xs < xs.length ∧ c ≤ cl xs (firstIdxGe c xs) ∧
        ∀ k < firstIdxGe c xs, cl xs k < c := by
  intro xs
  induction xs with
  | nil =>
      intro hex
      simp at hex
  | cons x t ih =>
      intro hex
      simp only [firstIdxGe]
      by_cases hx : c ≤ x
      · simp only [if_pos hx]
        refine ⟨by simp, hx, ?_⟩
        intro k hk
        exact absurd hk (Nat.not_lt_zero k)
      · simp only [if_neg hx]
        have hex2 : ∃ y ∈ t, c ≤ y := by
          rcases hex with ⟨y, hy, hcy⟩
          rcases List.mem_cons.mp hy with h | h
          · subst h
            exact absurd hcy hx
          · exact ⟨y, h, hcy⟩
        obtain ⟨h1, h2, h3⟩ := ih hex2
        refine ⟨by simpa using Nat.succ_lt_succ h1, ?_, ?_⟩
        · rw [cl_cons_succ]
          exact h2
        · intro k hk
          cases k with
          | zero =>
              rw [cl_cons_zero]
              exact lt_of_not_le hx
          | succ k =>
              rw [cl_cons_succ]
              exact h3 k (by omega)

theorem firstIdxLe_spec (c : ℚ) :
    ∀ xs : List ℚ, (∃ x ∈ xs, x ≤ c) →
      firstIdxLe c xs < xs.length ∧ cl xs (firstIdxLe c xs) ≤ c ∧
        ∀ k < firstIdxLe c xs, c < cl xs k := by
  intro xs
  induction xs with
  | nil =>
      intro hex
      simp at hex
  | cons x t ih =>
      intro hex
      simp only [firstIdxLe]
      by_cases hx : x ≤ c
      · simp only [if_pos hx]
        refine ⟨by simp, hx, ?_⟩
        intro k hk
        exact absurd hk (Nat.not_lt_zero k)
      · simp only [if_neg hx]
        have hex2 : ∃ y ∈ t, y ≤ c := by
          rcases hex with ⟨y, hy, hcy⟩
          rcases List.mem_cons.mp hy with h | h
          · subst h
            exact absurd hcy hx
          · exact ⟨y, h, hcy⟩
        obtain ⟨h1, h2, h3⟩ := ih hex2
        refine ⟨by simpa using Nat.succ_lt_succ h1, ?_, ?_⟩
        · rw [cl_cons_succ]
          exact h2
        · intro k hk
          cases k with
          | zero =>
              rw [cl_cons_zero]
              exact lt_of_not_le hx
          | succ k =>
              rw [cl_cons_succ]
              exact h3 k (by omega)

theorem idxminL_spec {xs : List ℚ} (h : xs ≠ []) :
    idxminL xs < xs.length ∧ cl xs (idxminL xs) ≤ listMin xs ∧
      ∀ k < idxminL xs, listMin xs < cl xs k :=
  firstIdxLe_spec (listMin xs) xs ⟨listMin xs, listMin_mem h, le_refl _⟩

theorem idxmaxL_spec {xs : List ℚ} (h : xs ≠ []) :
    idxmaxL xs < xs.length ∧ listMax xs ≤ cl xs (idxmaxL xs) ∧
      ∀ k < idxmaxL xs, cl xs k < listMax xs :=
  firstIdxGe_spec (listMax xs) xs ⟨listMax xs, listMax_mem h, le_refl _⟩

theorem firstIdxP_some {p : ℚ → Bool} :
    ∀ {xs : List ℚ} {j : ℕ}, firstIdxP p xs = some j →
      j < xs.length ∧ p (cl xs j) = true ∧ ∀ k < j, p (cl xs k) = false := by
  intro xs
  induction xs with
  | nil =>
      intro j h
      simp [firstIdxP] at h
  | cons x t ih =>
      intro j h
      by_cases hx : p x = true
      · rw [firstIdxP, if_pos hx] at h
        injection h with h
        subst h
        refine ⟨by simp, hx, ?_⟩
        intro k hk
        exact absurd hk (Nat.not_lt_zero k)
      · rw [firstIdxP, if_neg hx] at h
        cases hft : firstIdxP p t with
        | none =>
            rw [hft] at h
            simp at h
        | some j2 =>
            rw [hft] at h
            simp only [Option.map_some', Option.some.injEq] at h
            subst h
            obtain ⟨h1, h2, h3⟩ := ih hft
            refine ⟨by simpa using Nat.succ_lt_succ h1, ?_, ?_⟩
            · rw [cl_cons_succ]
              exact h2
            · intro k hk
              cases k with
              | zero =>
                  rw [cl_cons_zero]
                  simpa using hx
              | succ k =>
                  rw [cl_cons_succ]
                  exact h3 k (by omega)

theorem firstIdxP_none {p : ℚ → Bool} :
    ∀ {xs : List ℚ}, firstIdxP p xs = none →
      ∀ k < xs.length, p (cl xs k) = false := by
  intro xs
  induction xs with
  | nil =>
      intro _ k hk
      simp at hk
  | cons x t ih =>
      intro h k hk
      by_cases hx : p x = true
      · rw [firstIdxP, if_pos hx] at h
        cases h
      · rw [firstIdxP, if_neg hx] at h
        cases k with
        | zero =>
            rw [cl_cons_zero]
            simpa using hx
        | succ k =>
            cases hft : firstIdxP p t with
            | some j =>
                rw [hft] at h
                simp at h
            | none =>
                rw [cl_cons_succ]
                exact ih hft k (by simpa using hk)

/-! ### Characterization of `analyze_drawdown` -/

theorem analyze_drawdown_troughIdx (equity : List ℚ) :
    (analyze_drawdown equity).troughIdx =
      idxminL (List.zipWith (fun e m => (e - m) / m * 100) equity (cummax equity)) := rfl

theorem analyze_drawdown_peakIdx (equity : List ℚ) :
    (analyze_drawdown equity).peakIdx =
      idxmaxL ((cummax equity).take ((analyze_drawdown equity).troughIdx + 1)) := rfl

theorem analyze_drawdown_recoveryIdx (equity : List ℚ) :
    (analyze_drawdown equity).recoveryIdx =
      (firstIdxP
          (fun x => decide (cl (cummax equity) (analyze_drawdown equity).peakIdx ≤ x))
          (equity.drop (analyze_drawdown equity).troughIdx)).map
        (fun j => (analyze_drawdown equity).troughIdx + j) := rfl

/-- What the peak-location step computes, for an arbitrary trough index
`tr < length`: the first (earliest) index at or before `tr` at which equity
attains the running maximum. -/
theorem peak_spec (equity : List ℚ) (tr : ℕ) (htrn : tr < equity.length) :
    idxmaxL ((cummax equity).take (tr + 1)) ≤ tr ∧
      cl (cummax equity) (idxmaxL ((cummax equity).take (tr + 1))) =
        cl equity (idxmaxL ((cummax equity).take (tr + 1))) ∧
      (∀ i ≤ tr, cl equity i ≤ cl equity (idxmaxL ((cummax equity).take (tr + 1)))) ∧
      ∀ i < idxmaxL ((cummax equity).take (tr + 1)),
        cl equity i < cl equity (idxmaxL ((cummax equity).take (tr + 1))) := by
  set cm := cummax equity with hcm
  set T := cm.take (tr + 1) with hT
  set pk := idxmaxL T with hpkdef
  have hcmlen : cm.length = equity.length := by
    rw [hcm]
    exact cummax_length equity
  have hTlen : T.length = tr + 1 := by
    rw [hT, List.length_take, hcmlen]
    omega
  have hTne : T ≠ [] := by
    intro hc
    rw [hc] at hTlen
    simp at hTlen
  obtain ⟨hpk1, hpk2, hpk3⟩ := idxmaxL_spec hTne
  rw [← hpkdef] at hpk1 hpk2 hpk3
  have hpktr : pk ≤ tr := by
    rw [hTlen] at hpk1
    omega
  have hclT : ∀ k, k ≤ tr → cl T k = cl cm k := by
    intro k hk
    rw [hT]
    exact cl_take (by omega)
  have hpm : ∀ j, j ≤ tr → cl cm j = pMax equity j := by
    intro j hj
    rw [hcm]
    exact cummax_cl (by omega)
  have hpkM : cl T pk = listMax T := by
    refine le_antisymm (le_listMax (cl_mem ?_)) hpk2
    omega
  have hcmpk : cl cm pk = listMax T := by
    rw [← hclT pk hpktr]
    exact hpkM
  have hMtr : listMax T = pMax equity tr := by
    apply le_antisymm
    · rw [← hcmpk, hpm pk hpktr]
      exact pMax_mono equity hpktr
    · rw [← hpm tr (le_refl tr), ← hclT tr (le_refl tr)]
      refine le_listMax (cl_mem ?_)
      omega
  have heqpk : cl equity pk = listMax T := by
    cases hpkc : pk with
    | zero =>
        rw [hpkc] at hcmpk
        rw [← hcmpk, hpm 0 (by omega)]
        rfl
    | succ p =>
        rw [hpkc] at hcmpk hpktr hpk3
        have hplt : cl T p < listMax T := hpk3 p (by omega)
        rw [hclT p (by omega), hpm p (by omega)] at hplt
        have hmax : max (pMax equity p) (cl equity (p + 1)) = listMax T := by
          rw [← hcmpk, hpm (p + 1) hpktr]
          rfl
        have hle : cl equity (p + 1) ≤ listMax T := by
          rw [← hmax]
          exact le_max_right _ _
        rcases lt_or_ge (cl equity (p + 1)) (listMax T) with hlt2 | hge
        · exact absurd hmax (ne_of_lt (max_lt hplt hlt2))
        · exact le_antisymm hle hge
  refine ⟨hpktr, hcmpk.trans heqpk.symm, ?_, ?_⟩
  · intro i hi
    rw [heqpk, hMtr]
    exact le_pMax equity tr i hi
  · intro i hi
    have h1 : cl equity i ≤ pMax equity i := le_pMax equity i i (le_refl i)
    have h2 : pMax equity i = cl T i := by
      rw [← hpm i (by omega), hclT i (by omega)]
    have h3 : cl T i < listMax T := hpk3 i hi
    rw [heqpk]
    calc cl equity i ≤ pMax equity i := h1
      _ = cl T i := h2
      _ < listMax T := h3

/-- The trough is in range for a nonempty equity curve. -/
theorem trough_lt_length (equity : List ℚ) (h : equity ≠ []) :
    (analyze_drawdown equity).troughIdx < equity.length := by
  have hn : 0 < equity.length := List.length_pos.mpr h
  rw [analyze_drawdown_troughIdx]
  have hddlen :
      (List.zipWith (fun e m => (e - m) / m * 100) equity (cummax equity)).length =
        equity.length := by
    rw [List.length_zipWith, cummax_length, min_self]
  have hddne :
      List.zipWith (fun e m => (e - m) / m * 100) equity (cummax equity) ≠ [] := by
    intro hc
    rw [hc] at hddlen
    simp at hddlen
    omega
  have := (idxminL_spec hddne).1
  omega

/-- Full description of the peak reported by `analyze_drawdown`. -/
theorem analyze_drawdown_spec (equity : List ℚ) (h : equity ≠ []) :
    (analyze_drawdown equity).troughIdx < equity.length ∧
      (analyze_drawdown equity).peakIdx ≤ (analyze_drawdown equity).troughIdx ∧
      cl (cummax equity) (analyze_drawdown equity).peakIdx =
        cl equity (analyze_drawdown equity).peakIdx ∧
      (∀ i ≤ (analyze_drawdown equity).troughIdx,
        cl equity i ≤ cl equity (analyze_drawdown equity).peakIdx) ∧
      ∀ i < (analyze_drawdown equity).peakIdx,
        cl equity i < cl equity (analyze_drawdown equity).peakIdx := by
  have htrn := trough_lt_length equity h
  obtain ⟨h1, h2, h3, h4⟩ := peak_spec equity (analyze_drawdown equity).troughIdx htrn
  rw [← analyze_drawdown_peakIdx] at h1 h2 h3 h4
  exact ⟨htrn, h1, h2, h3, h4⟩

/-- Description of a present recovery index: it is the first index at or
after the trough whose equity reaches the recorded peak value. -/
theorem analyze_drawdown_recovery_some (equity : List ℚ) {r : ℕ}
    (hr : (analyze_drawdown equity).recoveryIdx = some r) :
    (analyze_drawdown equity).troughIdx ≤ r ∧ r < equity.length ∧
      cl (cummax equity) (analyze_drawdown equity).peakIdx ≤ cl equity r ∧
      ∀ i, (analyze_drawdown equity).troughIdx ≤ i → i < r →
        cl equity i < cl (cummax equity) (analyze_drawdown equity).peakIdx := by
  rw [analyze_drawdown_recoveryIdx] at hr
  cases hf : firstIdxP
      (fun x => decide (cl (cummax equity) (analyze_drawdown equity).peakIdx ≤ x))
      (equity.drop (analyze_drawdown equity).troughIdx) with
  | none =>
      rw [hf] at hr
      cases hr
  | some j =>
      rw [hf] at hr
      simp only [Option.map_some', Option.some.injEq] at hr
      obtain ⟨h1, h2, h3⟩ := firstIdxP_some hf
      rw [List.length_drop] at h1
      rw [cl_drop] at h2
      subst hr
      refine ⟨by omega, by omega, by simpa using h2, ?_⟩
      intro i hi1 hi2
      have hk := h3 (i - (analyze_drawdown equity).troughIdx) (by omega)
      rw [cl_drop] at hk
      have he : (analyze_drawdown equity).troughIdx +
          (i - (analyze_drawdown equity).troughIdx) = i := by omega
      rw [he] at hk
      have : ¬(cl (cummax equity) (analyze_drawdown equity).peakIdx ≤ cl equity i) := by
        simpa using hk
      exact lt_of_not_le this

/-- Description of an absent recovery index: no date at or after the trough
reaches the recorded peak value. -/
theorem analyze_drawdown_recovery_none (equity : List ℚ)
    (hr : (analyze_drawdown equity).recoveryIdx = none) :
    ∀ i, (analyze_drawdown equity).troughIdx ≤ i → i < equity.length →
      cl equity i < cl (cummax equity) (analyze_drawdown equity).peakIdx := by
  rw [analyze_drawdown_recoveryIdx] at hr
  cases hf : firstIdxP
      (fun x => decide (cl (cummax equity) (analyze_drawdown equity).peakIdx ≤ x))
      (equity.drop (analyze_drawdown equity).troughIdx) with
  | some j =>
      rw [hf] at hr
      simp at hr
  | none =>
      intro i hi1 hi2
      have hk := firstIdxP_none hf (i - (analyze_drawdown equity).troughIdx)
        (by rw [List.length_drop]; omega)
      rw [cl_drop] at hk
      have he : (analyze_drawdown equity).troughIdx +
          (i - (analyze_drawdown equity).troughIdx) = i := by omega
      rw [he] at hk
      have : ¬(cl (cummax equity) (analyze_drawdown equity).peakIdx ≤ cl equity i) := by
        simpa using hk
      exact lt_of_not_le this

/-! ### Claims C3 and C4 -/

unseal Rat.add Rat.mul Rat.sub Rat.inv in
/-- C3 (counterexample): on the equity curve `[2, 2, 1]` the trough is date
2 and the maximum equity value 2 is attained at dates 0 and 1, both at or
before the trough; the claim demands the most recent such date (1), but
`running_max[:trough].idxmax()` returns the first occurrence, date 0. -/
theorem C3_counterexample :
    (analyze_drawdown [(2 : ℚ), 2, 1]).troughIdx = 2 ∧
      (analyze_drawdown [(2 : ℚ), 2, 1]).peakIdx = 0 ∧
      cl [(2 : ℚ), 2, 1] 1 = cl [(2 : ℚ), 2, 1] 0 ∧
      (analyze_drawdown [(2 : ℚ), 2, 1]).peakIdx ≠ 1 := by
  decide

/-- C3 (amended): the reported peak date is a date of maximum equity among
all dates at or before the trough — but it is the EARLIEST such date, not
the most recent: every strictly earlier date has strictly smaller equity,
and every date up to the trough has equity at most the peak's. -/
theorem C3_amended (equity : List ℚ) (h : equity ≠ []) :
    (analyze_drawdown equity).peakIdx ≤ (analyze_drawdown equity).troughIdx ∧
      (analyze_drawdown equity).troughIdx < equity.length ∧
      (∀ i ≤ (analyze_drawdown equity).troughIdx,
        cl equity i ≤ cl equity (analyze_drawdown equity).peakIdx) ∧
      ∀ i < (analyze_drawdown equity).peakIdx,
        cl equity i < cl equity (analyze_drawdown equity).peakIdx := by
  obtain ⟨h1, h2, _, h4, h5⟩ := analyze_drawdown_spec equity h
  exact ⟨h2, h1, h4, h5⟩

unseal Rat.add Rat.mul Rat.sub Rat.inv in
/-- Witness for C3 (amended) at the concrete equity curve `[2, 1, 3]`. -/
theorem C3_witness :
    [(2 : ℚ), 1, 3] ≠ [] ∧
      (analyze_drawdown [(2 : ℚ), 1, 3]).peakIdx ≤
        (analyze_drawdown [(2 : ℚ), 1, 3]).troughIdx :=
  ⟨by decide, (C3_amended [(2 : ℚ), 1, 3] (by decide)).1⟩

unseal Rat.add Rat.mul Rat.sub Rat.inv in
/-- C4 (counterexample): on the non-decreasing equity curve `[2, 2]` the
trough is date 0 and the code reports recovery at date 0, the trough
itself — not a date strictly after the trough as the claim requires (the
source searches `equity[trough:]`, an inclusive slice). -/
theorem C4_counterexample :
    (analyze_drawdown [(2 : ℚ), 2]).troughIdx = 0 ∧
      (analyze_drawdown [(2 : ℚ), 2]).recoveryIdx = some 0 := by
  decide

/-- C4 (amended): the reported recovery date is the first date AT OR AFTER
the trough at which equity reaches the peak equity value (the recorded peak
value `running_max[peak]` equals `equity[peak]`), and it is absent exactly
when no date from the trough to the end of the series reaches that value.
When the maximum drawdown is strictly negative the trough itself cannot
qualify and this coincides with the claim's "strictly after"; on curves
whose trough equals its running maximum (e.g. non-decreasing equity) the
recovery can be the trough itself, refuting the claim as stated. -/
theorem C4_amended (equity : List ℚ) (h : equity ≠ []) :
    cl (cummax equity) (analyze_drawdown equity).peakIdx =
        cl equity (analyze_drawdown equity).peakIdx ∧
      (∀ r, (analyze_drawdown equity).recoveryIdx = some r →
        (analyze_drawdown equity).troughIdx ≤ r ∧ r < equity.length ∧
          cl equity (analyze_drawdown equity).peakIdx ≤ cl equity r) ∧
      (∀ r i, (analyze_drawdown equity).recoveryIdx = some r →
        (analyze_drawdown equity).troughIdx ≤ i → i < r →
          cl equity i < cl equity (analyze_drawdown equity).peakIdx) ∧
      ((analyze_drawdown equity).recoveryIdx = none →
        ∀ i, (analyze_drawdown equity).troughIdx ≤ i → i < equity.length →
          cl equity i < cl equity (analyze_drawdown equity).peakIdx) := by
  obtain ⟨_, _, h3, _, _⟩ := analyze_drawdown_spec equity h
  refine ⟨h3, ?_, ?_, ?_⟩
  · intro r hr
    obtain ⟨a, b, c, _⟩ := analyze_drawdown_recovery_some equity hr
    rw [h3] at c
    exact ⟨a, b, c⟩
  · intro r i hr hi1 hi2
    obtain ⟨_, _, _, d⟩ := analyze_drawdown_recovery_some equity hr
    have hd := d i hi1 hi2
    rwa [h3] at hd
  · intro hr i hi1 hi2
    have hd := analyze_drawdown_recovery_none equity hr i hi1 hi2
    rwa [h3] at hd

unseal Rat.add Rat.mul Rat.sub Rat.inv in
/-- Witness for C4 (amended) at the concrete equity curve `[2, 1, 3]`,
whose recovery is date 2. -/
theorem C4_witness :
    [(2 : ℚ), 1, 3] ≠ [] ∧
      ((analyze_drawdown [(2 : ℚ), 1, 3]).troughIdx ≤ 2 ∧ 2 < 3 ∧
        cl [(2 : ℚ), 1, 3] (analyze_drawdown [(2 : ℚ), 1, 3]).peakIdx ≤
          cl [(2 : ℚ), 1, 3] 2) :=
  ⟨by decide, (C4_amended [(2 : ℚ), 1, 3] (by decide)).2.1 2 (by decide)⟩

/-! ### Claim C7: trade pairing -/

theorem pairwise_filterMap_of {α β : Type} (f : α → Option β) (R : α → α → Prop)
    (S : β → β → Prop)
    (hf : ∀ a b x y, R a b → f a = some x → f b = some y → S x y) :
    ∀ l : List α, List.Pairwise R l → List.Pairwise S (l.filterMap f) := by
  intro l
  induction l with
  | nil =>
      intro _
      simp
  | cons a l ih =>
      intro hp
      rw [List.pairwise_cons] at hp
      obtain ⟨ha, hl⟩ := hp
      rw [List.filterMap_cons]
      cases hfa : f a with
      | none => exact ih hl
      | some x =>
          rw [List.pairwise_cons]
          refine ⟨?_, ih hl⟩
          intro y hy
          obtain ⟨b, hb, hfb⟩ := List.mem_filterMap.mp hy
          exact hf a b x y (ha b hb) hfa hfb

theorem pairwise_rel_get? {α : Type} {R : α → α → Prop} {l : List α}
    (h : List.Pairwise R l) {i j : ℕ} (hij : i < j) {a b : α}
    (ha : l.get? i = some a) (hb : l.get? j = some b) : R a b := by
  rw [List.get?_eq_some] at ha hb
  obtain ⟨hi, rfl⟩ := ha
  obtain ⟨hj, rfl⟩ := hb
  exact List.pairwise_iff_get.mp h ⟨i, hi⟩ ⟨j, hj⟩ hij

/-- What one iteration of the pairing loop produces: the trade's entry is the
`i`-th BUY row, its exit is a SELL row strictly later than the entry. -/
theorem pairTradeAt_spec {buys sells : List TRow} {cap : ℚ} {i : ℕ} {t : Trade}
    (h : pairTradeAt buys sells cap i = some t) :
    ∃ e x, buys.get? i = some e ∧ t.entryDate = e.date ∧ t.exitDate = x.date ∧
      x ∈ sells ∧ e.date < x.date := by
  unfold pairTradeAt at h
  cases hbi : buys.get? i with
  | none =>
      rw [hbi] at h
      cases h
  | some e =>
      rw [hbi] at h
      dsimp only at h
      cases hfs : sells.filter (fun x => decide (e.date < x.date)) with
      | nil =>
          rw [hfs] at h
          cases h
      | cons x xs =>
          rw [hfs] at h
          dsimp only at h
          injection h with h
          subst h
          have hx : x ∈ sells.filter (fun x => decide (e.date < x.date)) := by
            rw [hfs]
            exact List.mem_cons_self _ _
          rw [List.mem_filter] at hx
          exact ⟨e, x, rfl, rfl, rfl, hx.1, by simpa using hx.2⟩

unseal Rat.add Rat.mul Rat.sub Rat.inv in
/-- C7 (counterexample): position events BUY(date 1), BUY(date 2),
SELL(date 10).  The 1st entry (0-indexed: date 2) has a strictly later exit
(date 10), so the claim's pairing rule would emit a trade with entry date 2;
but the loop is bounded by `min(#BUY, #SELL) = 1` and only the trade with
entry date 1 is produced. -/
theorem C7_counterexample :
    (analyze_trades_detailed
        [⟨1, 5, some 1⟩, ⟨2, 6, some 1⟩, ⟨10, 7, some (-1)⟩] 10000).map
        (fun t => t.entryDate) = [1] ∧
      (([⟨1, 5, some 1⟩, ⟨2, 6, some 1⟩, ⟨10, 7, some (-1)⟩] : List TRow).filter
          (fun r => r.position == some 1)).map (fun r => r.date) = [1, 2] ∧
      (([⟨1, 5, some 1⟩, ⟨2, 6, some 1⟩, ⟨10, 7, some (-1)⟩] : List TRow).filter
          (fun r => r.position == some (-1))).map (fun r => r.date) = [10] := by
  decide

/-- C7 (amended): only the first `min(#ENTRY, #EXIT)` entries are evaluated;
each evaluated entry is paired with the first exit strictly later than its
date (and produces no trade when none exists).  Consequently, on every
chronologically sorted event frame: every produced trade has
`entry_date < exit_date`, the produced trades have strictly increasing
(hence pairwise distinct) entry dates, and at most
`min(#ENTRY, #EXIT)` trades are produced. -/
theorem C7_amended (rows : List TRow) (cap : ℚ)
    (hsorted : List.Pairwise (fun a b => a.date < b.date) rows) :
    (∀ t ∈ analyze_trades_detailed rows cap, t.entryDate < t.exitDate) ∧
      List.Pairwise (fun a b => a.entryDate < b.entryDate)
        (analyze_trades_detailed rows cap) ∧
      (analyze_trades_detailed rows cap).length ≤
        min (rows.filter (fun r => r.position == some 1)).length
          (rows.filter (fun r => r.position == some (-1))).length := by
  have hbp : List.Pairwise (fun a b : TRow => a.date < b.date)
      (rows.filter (fun r => r.position == some 1)) :=
    List.Pairwise.sublist (List.filter_sublist rows) hsorted
  refine ⟨?_, ?_, ?_⟩
  · intro t ht
    obtain ⟨i, _, hf⟩ := List.mem_filterMap.mp ht
    obtain ⟨e, x, _, he, hx, _, hlt⟩ := pairTradeAt_spec hf
    rw [he, hx]
    exact hlt
  · apply pairwise_filterMap_of _ (fun i j : ℕ => i < j) _ ?_ _
      (List.pairwise_lt_range _)
    intro i j ti tj hij hfi hfj
    obtain ⟨ei, xi, hbi, hei, _, _, _⟩ := pairTradeAt_spec hfi
    obtain ⟨ej, xj, hbj, hej, _, _, _⟩ := pairTradeAt_spec hfj
    rw [hei, hej]
    exact pairwise_rel_get? hbp hij hbi hbj
  · calc (analyze_trades_detailed rows cap).length
        ≤ (List.range (min (rows.filter (fun r => r.position == some 1)).length
            (rows.filter (fun r => r.position == some (-1))).length)).length :=
          List.length_filterMap_le _ _
      _ = _ := List.length_range _

unseal Rat.add Rat.mul Rat.sub Rat.inv in
/-- Witness for C7 (amended) at a concrete sorted event frame. -/
theorem C7_witness :
    List.Pairwise (fun a b : TRow => a.date < b.date)
        [⟨1, 5, some 1⟩, ⟨10, 7, some (-1)⟩] ∧
      (analyze_trades_detailed [⟨1, 5, some 1⟩, ⟨10, 7, some (-1)⟩] 100).length ≤
        min (([⟨1, 5, some 1⟩, ⟨10, 7, some (-1)⟩] : List TRow).filter
            (fun r => r.position == some 1)).length
          (([⟨1, 5, some 1⟩, ⟨10, 7, some (-1)⟩] : List TRow).filter
            (fun r => r.position == some (-1))).length :=
  ⟨by decide,
    (C7_amended [⟨1, 5, some 1⟩, ⟨10, 7, some (-1)⟩] 100 (by decide)).2.2⟩

/-! ### Claims C1, C9, C10: the RSI strategy -/

unseal Rat.add Rat.mul Rat.sub Rat.inv in
/-- C1 (code behavior at the failing input): with prices
`[10, 5, 5, 20, 20]`, `rsi_period = 2`, `oversold = 30`, `overbought = 70`,
at date 3 the RSI is `675/7 ≈ 96.4 > 70` (overbought), yet the `Signal`
column still holds `1`: the `replace(0, NaN).ffill()` step erased the
overbought-triggered `0`, so the signal never transitions back to `0`,
contradicting the specified latch and the code's own comments ("SELL when
RSI > overbought", "keep the position until the opposite signal"). -/
theorem C1_code_divergence :
    optGtC (rsiAt [10, 5, 5, 20, 20] 2 3) 70 = true ∧
      rsiSignal [10, 5, 5, 20, 20] 2 30 70 3 = 1 := by
  decide

unseal Rat.add Rat.mul Rat.sub Rat.inv in
/-- C9 (counterexample): on the constant series `[5, 5]` (period 14), at
date 1 the exponentially-weighted average loss is 0 but so is the average
gain, hence `rs = 0/0 = NaN` and the returned RSI is `NaN`
(undefined/non-finite), not 100 as the claim requires at every date with
zero average loss. -/
theorem C9_counterexample :
    avgLossAt [(5 : ℚ), 5] 14 1 = 0 ∧ rsiAt [(5 : ℚ), 5] 14 1 = none := by
  decide

/-- C9 (amended): at a date with zero average loss the RSI is exactly 100
provided the average gain is nonzero (IEEE: `rs = +inf`); when the average
gain is also 0 (date 0 of every series; constant prefixes) the RSI is `NaN`
(undefined).  No error is raised in either case. -/
theorem C9_amended (prices : List ℚ) (per i : ℕ)
    (h : avgLossAt prices per i = 0) :
    (avgGainAt prices per i ≠ 0 → rsiAt prices per i = some 100) ∧
      (avgGainAt prices per i = 0 → rsiAt prices per i = none) := by
  constructor
  · intro hg
    unfold rsiAt
    rw [if_pos h, if_neg hg]
  · intro hg
    unfold rsiAt
    rw [if_pos h, if_pos hg]

unseal Rat.add Rat.mul Rat.sub Rat.inv in
/-- Witness for C9 (amended): on `[1, 2]` at date 1 the average loss is 0,
the average gain is positive, and the RSI is exactly 100. -/
theorem C9_witness :
    avgLossAt [(1 : ℚ), 2] 14 1 = 0 ∧ rsiAt [(1 : ℚ), 2] 14 1 = some 100 :=
  ⟨by decide, (C9_amended [(1 : ℚ), 2] 14 1 (by decide)).1 (by decide)⟩

theorem rsiSignal_mem01 (prices : List ℚ) (p : ℕ) (os ob : ℚ) (i : ℕ) :
    rsiSignal prices p os ob i = 0 ∨ rsiSignal prices p os ob i = 1 := by
  induction i with
  | zero =>
      unfold rsiSignal
      split_ifs
      · exact Or.inr rfl
      · exact Or.inl rfl
  | succ i ih =>
      unfold rsiSignal
      split_ifs
      · exact Or.inr rfl
      · exact ih

theorem rsiSignal_step (prices : List ℚ) (p : ℕ) (os ob : ℚ) (i : ℕ)
    (h : rsiSignal prices p os ob i = 1) : rsiSignal prices p os ob (i + 1) = 1 := by
  unfold rsiSignal
  split_ifs
  · rfl
  · exact h

theorem rsiSignal_mono (prices : List ℚ) (p : ℕ) (os ob : ℚ) :
    ∀ i j, i ≤ j → rsiSignal prices p os ob i = 1 → rsiSignal prices p os ob j = 1 := by
  intro i j hij h1
  induction j with
  | zero =>
      have h0 : i = 0 := by omega
      subst h0
      exact h1
  | succ j ih =>
      rcases Nat.lt_or_ge i (j + 1) with hl | hg
      · exact rsiSignal_step prices p os ob j (ih (by omega))
      · have h0 : i = j + 1 := by omega
        subst h0
        exact h1

/-- C10 (confirmed, implicit claim): in the RSI strategy as implemented,
once the signal takes the value 1 it remains 1 at every later date (the
forward fill replaces every 0, including overbought exits, with the carried
1); consequently no output row has `Position = -1`, and
`analyze_rsi_trades` returns an empty trade collection on every run. -/
theorem C10_invariant (prices : List ℚ) (p : ℕ) (os ob cap cap2 : ℚ) :
    (∀ i j, i ≤ j → rsiSignal prices p os ob i = 1 → rsiSignal prices p os ob j = 1) ∧
      (∀ r ∈ rsi_mean_reversion_strategy prices p os ob cap,
        r.position ≠ some (-1)) ∧
      analyze_rsi_trades (rsi_mean_reversion_strategy prices p os ob cap) cap2 = [] := by
  have hpos : ∀ r ∈ rsi_mean_reversion_strategy prices p os ob cap,
      r.position = some 0 ∨ r.position = some 1 := by
    intro r hr
    simp only [rsi_mean_reversion_strategy] at hr
    rw [List.mem_filter] at hr
    obtain ⟨hmem, hkeep⟩ := hr
    obtain ⟨i, hi, rfl⟩ := List.mem_map.mp hmem
    simp only [rsiRowKeep, Bool.and_eq_true] at hkeep
    obtain ⟨⟨⟨⟨⟨hr_rsi, hr_pos⟩, hr_rets⟩, hr_strat⟩, hr_bh⟩, hr_se⟩ := hkeep
    have hi0 : i ≠ 0 := by
      intro h0
      rw [show (rsiRowAt prices p os ob (rsiBuyHoldCol prices cap)
          (rsiStratEqCol prices p os ob cap) i).position = rsiPosAt prices p os ob i
          from rfl] at hr_pos
      rw [h0] at hr_pos
      simp [rsiPosAt] at hr_pos
    have hpdef : (rsiRowAt prices p os ob (rsiBuyHoldCol prices cap)
        (rsiStratEqCol prices p os ob cap) i).position =
        some (rsiSignal prices p os ob i - rsiSignal prices p os ob (i - 1)) := by
      show rsiPosAt prices p os ob i = _
      unfold rsiPosAt
      rw [if_neg hi0]
    rcases rsiSignal_mem01 prices p os ob (i - 1) with hprev | hprev
    · rcases rsiSignal_mem01 prices p os ob i with hcur | hcur
      · left
        rw [hpdef, hcur, hprev, sub_zero]
      · right
        rw [hpdef, hcur, hprev, sub_zero]
    · have hcur : rsiSignal prices p os ob i = 1 := by
        have he : i - 1 + 1 = i := by omega
        rw [← he]
        exact rsiSignal_step prices p os ob (i - 1) hprev
      left
      rw [hpdef, hcur, hprev, sub_self]
  have hsells : (rsi_mean_reversion_strategy prices p os ob cap).filter
      (fun r => r.position == some (-1)) = [] := by
    rw [List.filter_eq_nil]
    intro r hr
    rcases hpos r hr with h | h <;> rw [h] <;> simp <;> norm_num
  refine ⟨rsiSignal_mono prices p os ob, ?_, ?_⟩
  · intro r hr
    rcases hpos r hr with h | h <;> rw [h] <;> simp <;> norm_num
  · have hdef : analyze_rsi_trades (rsi_mean_reversion_strategy prices p os ob cap) cap2
        = (List.range
            (min ((rsi_mean_reversion_strategy prices p os ob cap).filter
                (fun r => r.position == some 1)).length
              ((rsi_mean_reversion_strategy prices p os ob cap).filter
                (fun r => r.position == some (-1))).length)).filterMap
          (pairRsiTradeAt
            ((rsi_mean_reversion_strategy prices p os ob cap).filter
              (fun r => r.position == some 1))
            ((rsi_mean_reversion_strategy prices p os ob cap).filter
              (fun r => r.position == some (-1))) cap2) := rfl
    rw [hdef, hsells]
    simp

unseal Rat.add Rat.mul Rat.sub Rat.inv in
/-- Witness for C10 at the concrete input of C1: the signal is latched at 1
from date 1 through date 4, and the trade collection is empty. -/
theorem C10_witness :
    rsiSignal [10, 5, 5, 20, 20] 2 30 70 4 = 1 ∧
      analyze_rsi_trades
        (rsi_mean_reversion_strategy [10, 5, 5, 20, 20] 2 30 70 10000) 10000 = [] :=
  ⟨(C10_invariant [10, 5, 5, 20, 20] 2 30 70 10000 10000).1 1 4 (by decide) (by decide),
    (C10_invariant [10, 5, 5, 20, 20] 2 30 70 10000 10000).2.2⟩

end Finance
